import Mathlib

/-!
Shallow embedding of the packet-header library (src/src/headers.rs).

A header instance owns a byte buffer (`Vec<u8>`), modelled as a `List Nat`
whose elements are intended to be `< 256`.  Machine-integer arithmetic is
modelled over `Nat` with explicit `% 2 ^ 64` (for `u64`) and `% 256`
(for `u8`) where overflow matters.  A Rust operation that can panic
(index out of bounds, checked subtraction underflow with overflow checks
on, failed `assert_eq!`) is modelled as an `Option`-returning function,
`none` meaning an unrecoverable abort.
-/

namespace Packet

/-- Rust `usize` subtraction `a - b` with overflow checks on: panics
(`none`) when `b > a`. -/
def checkedSub (a b : Nat) : Option Nat :=
  if b ≤ a then some (a - b) else none

/-- The packet bit at MSB-0 index `i` of buffer `inner`:
`(inner[i / 8] >> (7 - i % 8)) & 1` (out-of-range bytes read as `0`;
callers that model Rust check bounds separately). -/
def getBit (inner : List Nat) (i : Nat) : Nat :=
  ((inner.getD (i / 8) 0) >>> (7 - i % 8)) &&& 1

/-- The accumulation loop of `bit_range` (headers.rs lines 249-253):
`for i in lsb..=msb { value <<= 1; value |= (inner[i/8] >> (7 - i%8)) & 1 }`
over a `u64` accumulator.  The index list is `lsb..=msb` materialised;
an out-of-bounds byte access aborts. -/
def readBitsLoop (inner : List Nat) : List Nat → Nat → Option Nat
  | [], value => some value
  | i :: is, value =>
    match inner[i / 8]? with
    | none => none
    | some b =>
      readBitsLoop inner is ((value * 2 + ((b >>> (7 - i % 8)) &&& 1)) % 2 ^ 64)

/-- `bit_range` (headers.rs lines 246-255).  After the loop, the result is
`value << (64 - (msb - lsb + 1)) >> (64 - (msb - lsb + 1))`; both
subtractions are checked (`msb - lsb` underflows when `msb < lsb`, and
`64 - (msb - lsb + 1)` underflows when the width exceeds 64). -/
def bit_range (inner : List Nat) (msb lsb : Nat) : Option Nat :=
  match readBitsLoop inner (List.range' lsb (msb + 1 - lsb)) 0 with
  | none => none
  | some v =>
    match checkedSub msb lsb with
    | none => none
    | some d =>
      match checkedSub 64 (d + 1) with
      | none => none
      | some s => some (((v <<< s) % 2 ^ 64) >>> s)

/-- The write loop of `set_bit_range` (headers.rs lines 259-263):
for each index `i` (the caller passes `(lsb..=msb).rev()`), clear bit
`7 - i % 8` of byte `i / 8`, or in the low bit of `value`, then
`value >>= 1`.  `!(1 << k)` on `u8` is `255 ^^^ (1 <<< k)`. -/
def set_bit_range_loop : List Nat → List Nat → Nat → Option (List Nat)
  | inner, [], _ => some inner
  | inner, i :: is, value =>
    match inner[i / 8]? with
    | none => none
    | some b =>
      set_bit_range_loop
        (inner.set (i / 8)
          ((b &&& (255 ^^^ (1 <<< (7 - i % 8)))) ||| ((value &&& 1) <<< (7 - i % 8))))
        is (value >>> 1)

/-- `set_bit_range` (headers.rs lines 256-264): iterate `(lsb..=msb).rev()`. -/
def set_bit_range (inner : List Nat) (msb lsb value : Nat) : Option (List Nat) :=
  set_bit_range_loop inner (List.range' lsb (msb + 1 - lsb)).reverse value

/-- The read loop shared by `bytes` (headers.rs lines 287-290) and the
byte-aligned branches of `show`: for each start index `i`, push
`bit_range(i + 7, i) as u8`. -/
def bytesLoop (inner : List Nat) : List Nat → Option (List Nat)
  | [] => some []
  | i :: is =>
    match bit_range inner (i + 7) i with
    | none => none
    | some v =>
      match bytesLoop inner is with
      | none => none
      | some rest => some (v % 256 :: rest)

/-- `bytes` (headers.rs lines 283-292): `assert_eq!((msb-lsb+1) % 8, 0)`
(with `msb - lsb` checked), then read the 8-bit sub-ranges starting at
`lsb, lsb+8, ...` (`(lsb..=msb).step_by(8)`, which has
`⌈(msb-lsb+1)/8⌉` elements). -/
def bytes (inner : List Nat) (msb lsb : Nat) : Option (List Nat) :=
  match checkedSub msb lsb with
  | none => none
  | some d =>
    if (d + 1) % 8 = 0 then
      bytesLoop inner (List.range' lsb ((d + 1 + 7) / 8) 8)
    else none

/-- The write loop of `set_bytes` (headers.rs lines 296-300): for each
start index `i`, `set_bit_range(i + 7, i, value[iter])`, consuming
`value` front to back (`value[iter]` out of bounds aborts). -/
def set_bytesLoop : List Nat → List Nat → List Nat → Option (List Nat)
  | inner, [], _ => some inner
  | inner, i :: is, vs =>
    match vs with
    | [] => none
    | v :: vs' =>
      match set_bit_range inner (i + 7) i v with
      | none => none
      | some inner' => set_bytesLoop inner' is vs'

/-- `set_bytes` (headers.rs lines 293-301): `assert_eq!(value.len() * 8,
msb - lsb + 1)` (with `msb - lsb` checked), then write each byte through
`set_bit_range` on successive 8-bit sub-ranges. -/
def set_bytes (inner : List Nat) (msb lsb : Nat) (value : List Nat) : Option (List Nat) :=
  match checkedSub msb lsb with
  | none => none
  | some d =>
    if value.length * 8 = d + 1 then
      set_bytesLoop inner (List.range' lsb ((d + 1 + 7) / 8) 8) value
    else none

/-- The sequence of byte values printed by `show` for one field
`start..=stop` (headers.rs lines 330-349), keeping just the hex payload:
width ≤ 8 prints one byte `bit_range(stop, start)`; a multiple-of-8 width
prints `width / 8` bytes stepping by 8 from `start`; otherwise those full
bytes are followed by `bit_range(stop, stop - width % 8)`. -/
def showFieldData (inner : List Nat) (start stop : Nat) : Option (List Nat) :=
  if stop - start + 1 ≤ 8 then
    match bit_range inner stop start with
    | none => none
    | some x => some [x % 256]
  else if (stop - start + 1) % 8 = 0 then
    bytesLoop inner (List.range' start ((stop - start + 1) / 8) 8)
  else
    match bytesLoop inner (List.range' start ((stop - start + 1) / 8) 8) with
    | none => none
    | some full =>
      match bit_range inner stop (stop - (stop - start + 1) % 8) with
      | none => none
      | some x => some (full ++ [x % 256])

/-! Bundled schemas (headers.rs lines 443-575): `new()` wraps the default
byte vector, `as_slice()` returns it, `len()`/`size()` return the declared
byte size.  A header instance is modelled by its buffer, so `new` is the
default vector itself. -/

def Ethernet.new : List Nat :=
  [0x0, 0x1, 0x2, 0x3, 0x4, 0x5, 0x6, 0x7, 0x8, 0x9, 0xa, 0xb, 0x08, 0x00]

def Ethernet.size : Nat := 14

def Vlan.new : List Nat := [0x0, 0xa, 0x08, 0x00]

def Vlan.size : Nat := 4

def IPv4.new : List Nat :=
  [0x45, 0x00, 0x00, 0x14, 0x00, 0x33, 0x40, 0xdd, 0x40, 0x06, 0xfa, 0xec,
   0xc0, 0xa8, 0x0, 0x1, 0xc0, 0xa8, 0x0, 0x2]

def IPv4.size : Nat := 20

def IPv6.new : List Nat :=
  [0x60, 0x00, 0x00, 0x00, 0x00, 0x2e, 0x06, 0x40,
   0x20, 0x01, 0x0d, 0xb8, 0x85, 0xa3, 0x00, 0x00, 0x00, 0x00, 0x8a, 0x2e, 0x03, 0x70, 0x73, 0x34,
   0x20, 0x01, 0x0d, 0xb8, 0x85, 0xa3, 0x00, 0x00, 0x00, 0x00, 0x8a, 0x2e, 0x03, 0x70, 0x73, 0x35]

def IPv6.size : Nat := 40

def TCP.new : List Nat :=
  [0x04, 0xd2, 0x00, 0x50, 0x0, 0x0, 0x0, 0x0, 0x0, 0x0, 0x0, 0x0,
   0x50, 0x02, 0x20, 0x00, 0x0d, 0x2c, 0x0, 0x0]

def TCP.size : Nat := 20

def UDP.new : List Nat := [0x04, 0xd2, 0x00, 0x50, 0x0, 0x0, 0x0, 0x0]

def UDP.size : Nat := 8

def Vxlan.new : List Nat := [0x8, 0x0, 0x0, 0x0, 0x0, 0x07, 0xd0, 0x0]

def Vxlan.size : Nat := 8

def Tester.new : List Nat :=
  [0xff, 0xff, 0xff, 0xff, 0xff, 0xff,
   0x20, 0x01, 0x0d, 0xb8, 0x85, 0xa3, 0xf0, 0xe0, 0xd0, 0xc0,
   0x8a, 0x2e, 0x03, 0x70, 0x73, 0x34, 0x45, 0x67,
   0x20, 0x01, 0x0d, 0xb8, 0x85, 0xa3, 0x00, 0x00, 0x00, 0x00, 0x8a, 0x2e, 0x03, 0x70, 0x73, 0x35]

def Tester.size : Nat := 40

/-- Generated geometry `Tester::byte16_msb()` for `byte16: 192-319`. -/
def Tester.byte16_msb : Nat := 319

/-- Generated geometry `Tester::byte16_lsb()` for `byte16: 192-319`. -/
def Tester.byte16_lsb : Nat := 192

/-- Generated getter `Tester::byte16()`: `self.bit_range(319, 192)`. -/
def Tester.byte16 (inner : List Nat) : Option Nat :=
  bit_range inner Tester.byte16_msb Tester.byte16_lsb

/-- Generated getter `Vlan::pcp()` for `pcp: 0-2`. -/
def Vlan.pcp (inner : List Nat) : Option Nat := bit_range inner 2 0

/-- Generated getter `Vlan::cfi()` for `cfi: 3-3`. -/
def Vlan.cfi (inner : List Nat) : Option Nat := bit_range inner 3 3

/-- Generated getter `Vlan::vid()` for `vid: 4-15`. -/
def Vlan.vid (inner : List Nat) : Option Nat := bit_range inner 15 4

/-- Generated getter `Vlan::etype()` for `etype: 16-31`. -/
def Vlan.etype (inner : List Nat) : Option Nat := bit_range inner 31 16

/-! Declared defaults as written in the specification (section 6 for the
bundled schemas, section 8 for `Tester`), for comparison with the source
vectors; the IPv6 address bytes are those of the source repository, which
the specification defers to. -/

def Ethernet.specDefaultBytes : List Nat :=
  [0x00, 0x01, 0x02, 0x03, 0x04, 0x05, 0x06, 0x07, 0x08, 0x09, 0x0a, 0x0b, 0x08, 0x00]

def Vlan.specDefaultBytes : List Nat := [0x00, 0x0a, 0x08, 0x00]

def IPv4.specDefaultBytes : List Nat :=
  [0x45, 0x00, 0x00, 0x14, 0x00, 0x33, 0x40, 0xdd, 0x40, 0x06, 0xfa, 0xec,
   0xc0, 0xa8, 0x00, 0x01, 0xc0, 0xa8, 0x00, 0x02]

def IPv6.specDefaultBytes : List Nat :=
  [0x60, 0x00, 0x00, 0x00, 0x00, 0x2e, 0x06, 0x40,
   0x20, 0x01, 0x0d, 0xb8, 0x85, 0xa3, 0x00, 0x00, 0x00, 0x00, 0x8a, 0x2e, 0x03, 0x70, 0x73, 0x34,
   0x20, 0x01, 0x0d, 0xb8, 0x85, 0xa3, 0x00, 0x00, 0x00, 0x00, 0x8a, 0x2e, 0x03, 0x70, 0x73, 0x35]

def TCP.specDefaultBytes : List Nat :=
  [0x04, 0xd2, 0x00, 0x50, 0x00, 0x00, 0x00, 0x00, 0x00, 0x00, 0x00, 0x00,
   0x50, 0x02, 0x20, 0x00, 0x0d, 0x2c, 0x00, 0x00]

def UDP.specDefaultBytes : List Nat :=
  [0x04, 0xd2, 0x00, 0x50, 0x00, 0x00, 0x00, 0x00]

def Vxlan.specDefaultBytes : List Nat :=
  [0x08, 0x00, 0x00, 0x00, 0x00, 0x07, 0xd0, 0x00]

def Tester.specDefaultBytes : List Nat :=
  [0xff, 0xff, 0xff, 0xff, 0xff, 0xff,
   0x20, 0x01, 0x0d, 0xb8, 0x85, 0xa3, 0xf0, 0xe0, 0xd0, 0xc0,
   0x8a, 0x2e, 0x03, 0x70, 0x73, 0x34, 0x45, 0x67,
   0x20, 0x01, 0x0d, 0xb8, 0x85, 0xa3, 0x00, 0x00, 0x00, 0x00, 0x8a, 0x2e, 0x03, 0x70, 0x73, 0x35]

/-! Toolkit: the value computed by the `bit_range` loop. -/

/-- Value of the bit sequence at indices `l`, folded MSB-first exactly as
the `bit_range` loop does, but without the `u64` wraparound. -/
def bitsVal (inner : List Nat) (l : List Nat) : Nat :=
  l.foldl (fun a i => a * 2 + getBit inner i) 0

theorem getBit_le_one (inner : List Nat) (i : Nat) : getBit inner i ≤ 1 := by
  unfold getBit
  rw [Nat.and_one_is_mod]
  omega

theorem bitsVal_foldl (inner : List Nat) (l : List Nat) :
    ∀ acc, l.foldl (fun a i => a * 2 + getBit inner i) acc
      = acc * 2 ^ l.length + bitsVal inner l := by
  induction l with
  | nil => intro acc; simp [bitsVal]
  | cons i is ih =>
    intro acc
    show List.foldl _ (acc * 2 + getBit inner i) is = _
    rw [ih]
    have h0 : bitsVal inner (i :: is) = getBit inner i * 2 ^ is.length + bitsVal inner is := by
      show List.foldl _ (0 * 2 + getBit inner i) is = _
      rw [ih]; ring
    rw [h0, List.length_cons, Nat.pow_succ]
    ring

theorem bitsVal_cons (inner : List Nat) (i : Nat) (is : List Nat) :
    bitsVal inner (i :: is) = getBit inner i * 2 ^ is.length + bitsVal inner is := by
  show List.foldl _ (0 * 2 + getBit inner i) is = _
  rw [bitsVal_foldl]; ring

theorem bitsVal_lt (inner : List Nat) (l : List Nat) :
    bitsVal inner l < 2 ^ l.length := by
  induction l with
  | nil => simp [bitsVal]
  | cons i is ih =>
    rw [bitsVal_cons, List.length_cons]
    have h1 : getBit inner i * 2 ^ is.length ≤ 1 * 2 ^ is.length :=
      Nat.mul_le_mul_right _ (getBit_le_one inner i)
    rw [Nat.one_mul] at h1
    calc getBit inner i * 2 ^ is.length + bitsVal inner is
        < getBit inner i * 2 ^ is.length + 2 ^ is.length := Nat.add_lt_add_left ih _
      _ ≤ 2 ^ is.length + 2 ^ is.length := Nat.add_le_add_right h1 _
      _ = 2 ^ (is.length + 1) := by rw [Nat.pow_succ]; ring

theorem readBitsLoop_eq (inner : List Nat) :
    ∀ (l : List Nat) (acc : Nat), (∀ i ∈ l, i / 8 < inner.length) →
      readBitsLoop inner l (acc % 2 ^ 64)
        = some (l.foldl (fun a i => a * 2 + getBit inner i) acc % 2 ^ 64) := by
  intro l
  induction l with
  | nil => intro acc _; simp [readBitsLoop]
  | cons i is ih =>
    intro acc h
    have hb : i / 8 < inner.length := h i (List.mem_cons_self i is)
    unfold readBitsLoop
    rw [List.getElem?_eq_getElem hb]
    have hg : inner[i / 8] = inner.getD (i / 8) 0 := by
      rw [List.getD_eq_getElem?_getD, List.getElem?_eq_getElem hb]; rfl
    have harith : (acc % 2 ^ 64 * 2 + ((inner[i / 8] >>> (7 - i % 8)) &&& 1)) % 2 ^ 64
        = (acc * 2 + getBit inner i) % 2 ^ 64 := by
      rw [hg]
      exact ((Nat.mod_modEq acc (2 ^ 64)).mul_right 2).add_right _
    show readBitsLoop inner is ((acc % 2 ^ 64 * 2 + ((inner[i / 8] >>> (7 - i % 8)) &&& 1)) % 2 ^ 64) = _
    rw [harith, ih (acc * 2 + getBit inner i) (fun j hj => h j (List.mem_cons_of_mem i hj))]
    rfl

theorem bit_range_spec (inner : List Nat) (msb lsb : Nat)
    (h1 : lsb ≤ msb) (h2 : msb < 8 * inner.length) (h3 : msb - lsb + 1 ≤ 64) :
    bit_range inner msb lsb = some (bitsVal inner (List.range' lsb (msb + 1 - lsb))) := by
  have hb : ∀ i ∈ List.range' lsb (msb + 1 - lsb), i / 8 < inner.length := by
    intro i hi
    have := List.mem_range'_1.mp hi
    omega
  have hlen : (List.range' lsb (msb + 1 - lsb)).length = msb + 1 - lsb := by simp
  have hval : bitsVal inner (List.range' lsb (msb + 1 - lsb)) < 2 ^ (msb + 1 - lsb) := by
    have := bitsVal_lt inner (List.range' lsb (msb + 1 - lsb))
    rwa [hlen] at this
  have hloop := readBitsLoop_eq inner (List.range' lsb (msb + 1 - lsb)) 0 hb
  rw [Nat.zero_mod] at hloop
  have hfold : List.foldl (fun a i => a * 2 + getBit inner i) 0 (List.range' lsb (msb + 1 - lsb))
      = bitsVal inner (List.range' lsb (msb + 1 - lsb)) := rfl
  have hmod : bitsVal inner (List.range' lsb (msb + 1 - lsb)) % 2 ^ 64
      = bitsVal inner (List.range' lsb (msb + 1 - lsb)) := by
    apply Nat.mod_eq_of_lt
    exact Nat.lt_of_lt_of_le hval (Nat.pow_le_pow_right (by omega) (by omega))
  have hc1 : checkedSub msb lsb = some (msb - lsb) := by
    unfold checkedSub; rw [if_pos h1]
  have hc2 : checkedSub 64 (msb - lsb + 1) = some (64 - (msb - lsb + 1)) := by
    unfold checkedSub; rw [if_pos h3]
  set V := bitsVal inner (List.range' lsb (msb + 1 - lsb)) with hV
  simp only [bit_range, hloop, hfold, hmod, hc1, hc2]
  have hsh : ((V <<< (64 - (msb - lsb + 1))) % 2 ^ 64) >>> (64 - (msb - lsb + 1)) = V := by
    rw [Nat.shiftLeft_eq, Nat.shiftRight_eq_div_pow]
    have hlt : V * 2 ^ (64 - (msb - lsb + 1)) < 2 ^ 64 := by
      have : V * 2 ^ (64 - (msb - lsb + 1)) < 2 ^ (msb + 1 - lsb) * 2 ^ (64 - (msb - lsb + 1)) :=
        Nat.mul_lt_mul_of_lt_of_le hval (Nat.le_refl _) (Nat.pos_pow_of_pos _ (by omega))
      calc V * 2 ^ (64 - (msb - lsb + 1))
          < 2 ^ (msb + 1 - lsb) * 2 ^ (64 - (msb - lsb + 1)) := this
        _ = 2 ^ (msb + 1 - lsb + (64 - (msb - lsb + 1))) := by rw [Nat.pow_add]
        _ ≤ 2 ^ 64 := Nat.pow_le_pow_right (by omega) (by omega)
    rw [Nat.mod_eq_of_lt hlt]
    exact Nat.mul_div_cancel V (Nat.pos_pow_of_pos _ (by omega))
  rw [hsh]

theorem bitsVal_eq_mod (inner : List Nat) (v : Nat) :
    ∀ (n s : Nat), (∀ k, k < n → getBit inner (s + k) = (v >>> (n - 1 - k)) &&& 1) →
      bitsVal inner (List.range' s n) = v % 2 ^ n := by
  intro n
  induction n with
  | zero => intro s _; simp [bitsVal, Nat.mod_one]
  | succ n ih =>
    intro s h
    rw [List.range'_succ, bitsVal_cons, List.length_range']
    have hrec : bitsVal inner (List.range' (s + 1) n) = v % 2 ^ n := by
      apply ih
      intro k hk
      have hx := h (k + 1) (by omega)
      have e1 : s + 1 + k = s + (k + 1) := by omega
      have e2 : n + 1 - 1 - (k + 1) = n - 1 - k := by omega
      rw [e1, hx, e2]
    rw [hrec]
    have h0 := h 0 (Nat.succ_pos n)
    have e0 : n + 1 - 1 - 0 = n := by omega
    rw [Nat.add_zero, e0] at h0
    rw [h0, Nat.and_one_is_mod, Nat.shiftRight_eq_div_pow, Nat.pow_succ, Nat.mod_mul]
    ring

/-! Toolkit: effect of the `set_bit_range` loop on individual bits. -/

theorem and_one_shiftRight (x p : Nat) : (x >>> p) &&& 1 = (x.testBit p).toNat := by
  rw [Nat.and_one_is_mod, Nat.shiftRight_eq_div_pow, Nat.toNat_testBit]

theorem getD_set_ne (inner : List Nat) (a t x : Nat) (h : a ≠ t) :
    (inner.set a x).getD t 0 = inner.getD t 0 := by
  rw [List.getD_eq_getElem?_getD, List.getD_eq_getElem?_getD, List.getElem?_set_ne h]

/-- Bit `p` of a byte after the two-statement body of the `set_bit_range`
loop: position `k` becomes the low bit of `value`, every other position of
the byte is unchanged. -/
theorem testBit_writeBit (b value k p : Nat) (hp : p ≤ 7) :
    ((b &&& (255 ^^^ (1 <<< k))) ||| ((value &&& 1) <<< k)).testBit p
      = if p = k then decide (value % 2 = 1) else b.testBit p := by
  have h255 : (255 : Nat) = 2 ^ 8 - 1 := by norm_num
  rw [Nat.one_shiftLeft, h255, Nat.testBit_or, Nat.testBit_and, Nat.testBit_xor,
    Nat.testBit_two_pow_sub_one, Nat.testBit_two_pow, Nat.testBit_shiftLeft]
  by_cases hpk : p = k
  · subst hpk
    have hlt : p < 8 := by omega
    simp [hlt, Nat.and_one_is_mod, Nat.testBit_to_div_mod]
  · rw [if_neg hpk]
    have hlt : p < 8 := by omega
    have hkp : ¬ (k = p) := fun h => hpk h.symm
    rcases Nat.lt_or_ge p k with h | h
    · have hh : ¬ (k ≤ p) := by omega
      simp [hlt, hkp, hh]
    · have hlow : value % 2 < 2 ^ (p - k) := by
        calc value % 2 < 2 := by omega
          _ = 2 ^ 1 := by norm_num
          _ ≤ 2 ^ (p - k) := Nat.pow_le_pow_right (by norm_num) (by omega)
      simp [hlt, hkp, Nat.testBit_lt_two_pow hlow]

/-- Effect of one iteration of the `set_bit_range` loop on every packet
bit: bit `i` becomes `value &&& 1`, every other bit is untouched. -/
theorem getBit_set_eq (inner : List Nat) (i value : Nat) (hb : i / 8 < inner.length) (j : Nat) :
    getBit (inner.set (i / 8)
        ((inner.getD (i / 8) 0 &&& (255 ^^^ (1 <<< (7 - i % 8)))) |||
          ((value &&& 1) <<< (7 - i % 8)))) j
      = if j = i then value &&& 1 else getBit inner j := by
  by_cases hj8 : j / 8 = i / 8
  · have hset : (inner.set (i / 8)
        ((inner.getD (i / 8) 0 &&& (255 ^^^ (1 <<< (7 - i % 8)))) |||
          ((value &&& 1) <<< (7 - i % 8)))).getD (j / 8) 0
        = (inner.getD (i / 8) 0 &&& (255 ^^^ (1 <<< (7 - i % 8)))) |||
            ((value &&& 1) <<< (7 - i % 8)) := by
      rw [hj8, List.getD_eq_getElem?_getD, List.getElem?_set_self hb]; rfl
    unfold getBit
    rw [hset, and_one_shiftRight,
      testBit_writeBit (inner.getD (i / 8) 0) value (7 - i % 8) (7 - j % 8) (by omega)]
    by_cases hji : j = i
    · subst hji
      rw [if_pos rfl, if_pos rfl]
      have : ∀ v : Nat, (decide (v % 2 = 1)).toNat = v % 2 := by
        intro v
        rcases Nat.mod_two_eq_zero_or_one v with h | h <;> simp [h]
      rw [this, Nat.and_one_is_mod]
    · have hmod : j % 8 ≠ i % 8 := by omega
      have hpos : 7 - j % 8 ≠ 7 - i % 8 := by omega
      rw [if_neg hpos, if_neg hji, ← and_one_shiftRight, hj8]
  · have hji : j ≠ i := fun h => hj8 (by rw [h])
    rw [if_neg hji]
    unfold getBit
    rw [getD_set_ne _ _ _ _ (fun h => hj8 h.symm)]

/-- Characterisation of the `set_bit_range` loop over the descending index
list `(range' lsb w).reverse`: it succeeds when the span is in range,
preserves the buffer length, installs the low `w` bits of `value`
(most-significant at `lsb`), leaves every other bit unchanged, and leaves
every byte disjoint from the span untouched. -/
theorem set_loop_spec (lsb : Nat) :
    ∀ (w : Nat) (inner : List Nat) (value : Nat),
      lsb + w ≤ 8 * inner.length →
      ∃ inner', set_bit_range_loop inner (List.range' lsb w).reverse value = some inner' ∧
        inner'.length = inner.length ∧
        (∀ j, getBit inner' j
          = if lsb ≤ j ∧ j < lsb + w then (value >>> (lsb + w - 1 - j)) &&& 1
            else getBit inner j) ∧
        (∀ t, (∀ i, lsb ≤ i → i < lsb + w → i / 8 ≠ t) →
          inner'.getD t 0 = inner.getD t 0) := by
  intro w
  induction w with
  | zero =>
    intro inner value _
    exact ⟨inner, rfl, rfl, fun j => by rw [if_neg (by omega)], fun t _ => rfl⟩
  | succ w ih =>
    intro inner value hle
    have hsplit : (List.range' lsb (w + 1)).reverse = (lsb + w) :: (List.range' lsb w).reverse := by
      rw [List.range'_concat, List.reverse_append]
      simp
    have hb : (lsb + w) / 8 < inner.length := by omega
    have hgb : inner[(lsb + w) / 8]? = some (inner.getD ((lsb + w) / 8) 0) := by
      rw [List.getElem?_eq_getElem hb, List.getD_eq_getElem?_getD,
        List.getElem?_eq_getElem hb]
      rfl
    have hstep : set_bit_range_loop inner ((lsb + w) :: (List.range' lsb w).reverse) value
        = set_bit_range_loop
            (inner.set ((lsb + w) / 8)
              ((inner.getD ((lsb + w) / 8) 0 &&& (255 ^^^ (1 <<< (7 - (lsb + w) % 8)))) |||
                ((value &&& 1) <<< (7 - (lsb + w) % 8))))
            (List.range' lsb w).reverse (value >>> 1) := by
      simp only [set_bit_range_loop, hgb]
    obtain ⟨inner', heq, hlen, hbits, hbytes⟩ :=
      ih (inner.set ((lsb + w) / 8)
            ((inner.getD ((lsb + w) / 8) 0 &&& (255 ^^^ (1 <<< (7 - (lsb + w) % 8)))) |||
              ((value &&& 1) <<< (7 - (lsb + w) % 8))))
        (value >>> 1) (by rw [List.length_set]; omega)
    refine ⟨inner', by rw [hsplit, hstep]; exact heq, by rw [hlen, List.length_set], ?_, ?_⟩
    · intro j
      rw [hbits j]
      by_cases hcase : lsb ≤ j ∧ j < lsb + w
      · rw [if_pos hcase, if_pos (by omega), ← Nat.shiftRight_add]
        have : 1 + (lsb + w - 1 - j) = lsb + (w + 1) - 1 - j := by omega
        rw [this]
      · rw [if_neg hcase]
        have hgb2 := getBit_set_eq inner (lsb + w) value hb j
        by_cases hji : j = lsb + w
        · rw [if_pos (by omega), hgb2, if_pos hji]
          have : lsb + (w + 1) - 1 - j = 0 := by omega
          rw [this, Nat.shiftRight_zero]
        · rw [if_neg (by omega), hgb2, if_neg hji]
    · intro t ht
      rw [hbytes t (fun i h1 h2 => ht i h1 (by omega))]
      exact getD_set_ne _ _ _ _ (ht (lsb + w) (by omega) (by omega))

/-- Characterisation of `set_bit_range` on an in-range span. -/
theorem set_bit_range_spec (inner : List Nat) (msb lsb value : Nat)
    (h1 : lsb ≤ msb) (h2 : msb < 8 * inner.length) :
    ∃ inner', set_bit_range inner msb lsb value = some inner' ∧
      inner'.length = inner.length ∧
      (∀ j, getBit inner' j
        = if lsb ≤ j ∧ j ≤ msb then (value >>> (msb - j)) &&& 1 else getBit inner j) ∧
      (∀ t, (∀ i, lsb ≤ i → i ≤ msb → i / 8 ≠ t) →
        inner'.getD t 0 = inner.getD t 0) := by
  obtain ⟨inner', heq, hlen, hbits, hbytes⟩ :=
    set_loop_spec lsb (msb + 1 - lsb) inner value (by omega)
  refine ⟨inner', heq, hlen, ?_, ?_⟩
  · intro j
    rw [hbits j]
    by_cases hcase : lsb ≤ j ∧ j ≤ msb
    · rw [if_pos (by omega), if_pos hcase]
      have : lsb + (msb + 1 - lsb) - 1 - j = msb - j := by omega
      rw [this]
    · rw [if_neg (by omega), if_neg hcase]
  · intro t ht
    exact hbytes t (fun i hi1 hi2 => ht i hi1 (by omega))

/-! Toolkit: the byte-run codec. -/

theorem bytesLoop_spec (inner : List Nat) :
    ∀ (n s : Nat), s + 8 * n ≤ 8 * inner.length →
      ∃ out, bytesLoop inner (List.range' s n 8) = some out ∧
        out.length = n ∧
        ∀ k, k < n → bit_range inner (s + 8 * k + 7) (s + 8 * k) = some (out.getD k 0) := by
  intro n
  induction n with
  | zero => intro s _; exact ⟨[], rfl, rfl, by omega⟩
  | succ n ih =>
    intro s hle
    obtain ⟨out, hloop, hlen, hidx⟩ := ih (s + 8) (by omega)
    have hbr : bit_range inner (s + 7) s
        = some (bitsVal inner (List.range' s (s + 7 + 1 - s))) :=
      bit_range_spec inner (s + 7) s (by omega) (by omega) (by omega)
    have hlt : bitsVal inner (List.range' s (s + 7 + 1 - s)) < 256 := by
      have hv := bitsVal_lt inner (List.range' s (s + 7 + 1 - s))
      have hl : (List.range' s (s + 7 + 1 - s)).length = 8 := by
        rw [List.length_range']; omega
      rw [hl] at hv
      exact hv
    refine ⟨bitsVal inner (List.range' s (s + 7 + 1 - s)) % 256 :: out, ?_,
      by rw [List.length_cons, hlen], ?_⟩
    · rw [List.range'_succ]
      simp only [bytesLoop, hbr, hloop]
    · intro k hk
      cases k with
      | zero =>
        rw [List.getD_cons_zero, Nat.mod_eq_of_lt hlt]
        have e : s + 8 * 0 = s := by omega
        rw [e, hbr]
      | succ k =>
        rw [List.getD_cons_succ]
        have e : s + 8 * (k + 1) = s + 8 + 8 * k := by ring
        rw [e]
        exact hidx k (by omega)

/-- Success and contents of `bytes` on an in-range byte-aligned span. -/
theorem bytes_spec (inner : List Nat) (msb lsb : Nat)
    (h1 : lsb ≤ msb) (h2 : msb < 8 * inner.length) (h3 : (msb - lsb + 1) % 8 = 0) :
    ∃ out, bytes inner msb lsb = some out ∧
      out.length = (msb - lsb + 1) / 8 ∧
      ∀ k, k < out.length →
        bit_range inner (lsb + 8 * k + 7) (lsb + 8 * k) = some (out.getD k 0) := by
  have hc1 : checkedSub msb lsb = some (msb - lsb) := by
    unfold checkedSub; rw [if_pos h1]
  have hcount : (msb - lsb + 1 + 7) / 8 = (msb - lsb + 1) / 8 := by omega
  obtain ⟨out, hloop, hlen, hidx⟩ :=
    bytesLoop_spec inner ((msb - lsb + 1) / 8) lsb (by omega)
  refine ⟨out, ?_, hlen, fun k hk => hidx k (by omega)⟩
  simp only [bytes, hc1, if_pos h3, hcount, hloop]

/-- Reading back one 8-bit span whose bits hold the bits of `v`. -/
theorem bit_range_byte (inner : List Nat) (s v : Nat) (h2 : s + 7 < 8 * inner.length)
    (h : ∀ m, m < 8 → getBit inner (s + m) = (v >>> (7 - m)) &&& 1) :
    bit_range inner (s + 7) s = some (v % 256) := by
  rw [bit_range_spec inner (s + 7) s (by omega) h2 (by omega)]
  have e : s + 7 + 1 - s = 8 := by omega
  rw [e]
  rw [bitsVal_eq_mod inner v 8 s (by intro k hk; rw [h k hk])]
  norm_num

theorem set_bytesLoop_spec :
    ∀ (vs : List Nat) (s : Nat) (inner : List Nat),
      s + 8 * vs.length ≤ 8 * inner.length →
      ∃ inner', set_bytesLoop inner (List.range' s vs.length 8) vs = some inner' ∧
        inner'.length = inner.length ∧
        (∀ j, j < s ∨ s + 8 * vs.length ≤ j → getBit inner' j = getBit inner j) ∧
        (∀ k m, k < vs.length → m < 8 →
          getBit inner' (s + 8 * k + m) = ((vs.getD k 0) >>> (7 - m)) &&& 1) := by
  intro vs
  induction vs with
  | nil =>
    intro s inner _
    exact ⟨inner, rfl, rfl, fun j _ => rfl, by intro k m hk _; simp at hk⟩
  | cons v vs' ih =>
    intro s inner hle
    rw [List.length_cons] at hle
    obtain ⟨inner1, heq1, hlen1, hbits1, _⟩ :=
      set_bit_range_spec inner (s + 7) s v (by omega) (by omega)
    obtain ⟨inner', heq', hlen', hout', hin'⟩ :=
      ih (s + 8) inner1 (by rw [hlen1]; omega)
    refine ⟨inner', ?_, by rw [hlen', hlen1], ?_, ?_⟩
    · rw [List.length_cons, List.range'_succ]
      simp only [set_bytesLoop, heq1, heq']
    · intro j hj
      rw [List.length_cons] at hj
      rw [hout' j (by omega), hbits1 j, if_neg (by omega)]
    · intro k m hk hm
      cases k with
      | zero =>
        rw [List.getD_cons_zero]
        have e : s + 8 * 0 + m = s + m := by omega
        rw [e, hout' (s + m) (by omega), hbits1 (s + m), if_pos (by omega)]
        have e2 : s + 7 - (s + m) = 7 - m := by omega
        rw [e2]
      | succ k =>
        rw [List.getD_cons_succ]
        have e : s + 8 * (k + 1) + m = s + 8 + 8 * k + m := by ring
        rw [e]
        exact hin' k m (by rw [List.length_cons] at hk; omega) hm

/-- Success and bit-level effect of `set_bytes` on an in-range span of
matching length. -/
theorem set_bytes_spec (inner : List Nat) (msb lsb : Nat) (a : List Nat)
    (h1 : lsb ≤ msb) (h2 : msb < 8 * inner.length)
    (h3 : a.length * 8 = msb - lsb + 1) :
    ∃ inner', set_bytes inner msb lsb a = some inner' ∧
      inner'.length = inner.length ∧
      (∀ j, j < lsb ∨ msb < j → getBit inner' j = getBit inner j) ∧
      (∀ k m, k < a.length → m < 8 →
        getBit inner' (lsb + 8 * k + m) = ((a.getD k 0) >>> (7 - m)) &&& 1) := by
  have hc1 : checkedSub msb lsb = some (msb - lsb) := by
    unfold checkedSub; rw [if_pos h1]
  have hcount : (msb - lsb + 1 + 7) / 8 = a.length := by omega
  obtain ⟨inner', heq, hlen, hout, hin⟩ := set_bytesLoop_spec a lsb inner (by omega)
  refine ⟨inner', ?_, hlen, fun j hj => hout j (by omega), hin⟩
  simp only [set_bytes, hc1, if_pos h3, hcount, heq]

/-! Claims. -/

/-- C1: for every header buffer, every field span `[lsb, msb]` of width
`msb - lsb + 1 ≤ 64` inside the buffer, and every `u64` value `v`, setting
the field and reading it back yields `v mod 2^width`; the setter silently
truncates overlong values and never signals an error. -/
theorem field_set_get_truncation (inner : List Nat) (msb lsb v : Nat)
    (h1 : lsb ≤ msb) (h2 : msb < 8 * inner.length) (h3 : msb - lsb + 1 ≤ 64) :
    (set_bit_range inner msb lsb v).bind (fun inner' => bit_range inner' msb lsb)
      = some (v % 2 ^ (msb - lsb + 1)) := by
  obtain ⟨inner', heq, hlen, hbits, _⟩ := set_bit_range_spec inner msb lsb v h1 h2
  rw [heq]
  show bit_range inner' msb lsb = _
  rw [bit_range_spec inner' msb lsb h1 (by rw [hlen]; exact h2) h3]
  rw [bitsVal_eq_mod inner' v (msb + 1 - lsb) lsb (by
    intro k hk
    rw [hbits (lsb + k), if_pos (by omega)]
    have e : msb - (lsb + k) = msb + 1 - lsb - 1 - k := by omega
    rw [e])]
  have e2 : msb + 1 - lsb = msb - lsb + 1 := by omega
  rw [e2]

theorem field_set_get_truncation_witness :
    (set_bit_range Vlan.new 15 4 0x1abc).bind (fun inner' => bit_range inner' 15 4)
      = some (0x1abc % 2 ^ (15 - 4 + 1)) :=
  field_set_get_truncation Vlan.new 15 4 0x1abc (by decide) (by decide) (by decide)

/-- C2: a field setter changes no bit outside the span `[lsb, msb]`, and
every byte lying entirely outside the span is preserved byte-by-byte. -/
theorem setter_noninterference (inner : List Nat) (msb lsb v : Nat)
    (h1 : lsb ≤ msb) (h2 : msb < 8 * inner.length) :
    ∀ inner', set_bit_range inner msb lsb v = some inner' →
      (∀ j, j < lsb ∨ msb < j → getBit inner' j = getBit inner j) ∧
      (∀ t, 8 * t + 7 < lsb ∨ msb < 8 * t → inner'.getD t 0 = inner.getD t 0) := by
  obtain ⟨inner0, heq, _, hbits, hbytes⟩ := set_bit_range_spec inner msb lsb v h1 h2
  intro inner' heq'
  have he : inner' = inner0 := by
    rw [heq] at heq'
    exact (Option.some.inj heq').symm
  subst he
  constructor
  · intro j hj
    rw [hbits j, if_neg (by omega)]
  · intro t ht
    exact hbytes t (by intro i hi1 hi2; omega)

theorem setter_noninterference_witness :
    getBit [0x01, 0x23, 0x08, 0x00] 16 = getBit Vlan.new 16 ∧
    ([0x01, 0x23, 0x08, 0x00] : List Nat).getD 2 0 = Vlan.new.getD 2 0 := by
  have h := setter_noninterference Vlan.new 15 4 0x123 (by decide) (by decide)
    [0x01, 0x23, 0x08, 0x00] (by decide)
  exact ⟨h.1 16 (by decide), h.2 2 (by decide)⟩

/-- C3: each bundled schema's `new()` yields exactly the declared default
byte vector, whose length is the declared size in bytes. -/
theorem defaults_fidelity :
    (Ethernet.new = Ethernet.specDefaultBytes ∧ Ethernet.new.length = Ethernet.size) ∧
    (Vlan.new = Vlan.specDefaultBytes ∧ Vlan.new.length = Vlan.size) ∧
    (IPv4.new = IPv4.specDefaultBytes ∧ IPv4.new.length = IPv4.size) ∧
    (IPv6.new = IPv6.specDefaultBytes ∧ IPv6.new.length = IPv6.size) ∧
    (TCP.new = TCP.specDefaultBytes ∧ TCP.new.length = TCP.size) ∧
    (UDP.new = UDP.specDefaultBytes ∧ UDP.new.length = UDP.size) ∧
    (Vxlan.new = Vxlan.specDefaultBytes ∧ Vxlan.new.length = Vxlan.size) ∧
    (Tester.new = Tester.specDefaultBytes ∧ Tester.new.length = Tester.size) := by
  decide

/-- C4: on an in-range byte-aligned span, `bytes` returns exactly
`(msb - lsb + 1) / 8` bytes, and byte `k` (counted from the `lsb` side)
is the 8-bit bit-range read at `[lsb + 8k, lsb + 8k + 7]`. -/
theorem bytes_agrees_with_bit_ranges (inner : List Nat) (msb lsb : Nat)
    (h1 : lsb ≤ msb) (h2 : msb < 8 * inner.length) (h3 : (msb - lsb + 1) % 8 = 0) :
    ∃ out, bytes inner msb lsb = some out ∧
      out.length = (msb - lsb + 1) / 8 ∧
      ∀ k, k < out.length →
        bit_range inner (lsb + 8 * k + 7) (lsb + 8 * k) = some (out.getD k 0) :=
  bytes_spec inner msb lsb h1 h2 h3

theorem bytes_agrees_with_bit_ranges_witness :
    ∃ out, bytes Tester.new 319 192 = some out ∧
      out.length = (319 - 192 + 1) / 8 ∧
      ∀ k, k < out.length →
        bit_range Tester.new (192 + 8 * k + 7) (192 + 8 * k) = some (out.getD k 0) :=
  bytes_agrees_with_bit_ranges Tester.new 319 192 (by decide) (by decide) (by decide)

/-- C5: after `set_bytes` writes a byte array of matching length over an
in-range byte-aligned span, `bytes` on the same span returns a
byte-for-byte copy of the array. -/
theorem set_bytes_bytes_roundtrip (inner : List Nat) (msb lsb : Nat) (a : List Nat)
    (h1 : lsb ≤ msb) (h2 : msb < 8 * inner.length)
    (h3 : a.length * 8 = msb - lsb + 1) (h4 : ∀ x ∈ a, x < 256) :
    (set_bytes inner msb lsb a).bind (fun inner' => bytes inner' msb lsb) = some a := by
  obtain ⟨inner', heq, hlen, _, hin⟩ := set_bytes_spec inner msb lsb a h1 h2 h3
  rw [heq]
  show bytes inner' msb lsb = some a
  obtain ⟨out, hbytes, hblen, hbidx⟩ :=
    bytes_spec inner' msb lsb h1 (by rw [hlen]; exact h2) (by omega)
  rw [hbytes]
  have hlena : out.length = a.length := by omega
  congr 1
  apply List.ext_getElem hlena
  intro k hk1 hk2
  have hspan : bit_range inner' (lsb + 8 * k + 7) (lsb + 8 * k) = some (a.getD k 0 % 256) :=
    bit_range_byte inner' (lsb + 8 * k) (a.getD k 0) (by
        rw [hlen]
        omega)
      (fun m hm => hin k m (by omega) hm)
  have hread := hbidx k hk1
  rw [hspan] at hread
  have hma : a.getD k 0 % 256 = a.getD k 0 := by
    apply Nat.mod_eq_of_lt
    apply h4
    rw [List.getD_eq_getElem a 0 hk2]
    exact List.getElem_mem hk2
  calc out[k] = out.getD k 0 := (List.getD_eq_getElem out 0 hk1).symm
    _ = a.getD k 0 % 256 := (Option.some.inj hread).symm
    _ = a.getD k 0 := hma
    _ = a[k] := List.getD_eq_getElem a 0 hk2

theorem set_bytes_bytes_roundtrip_witness :
    (set_bytes Tester.new 319 192
        [1, 2, 3, 4, 5, 6, 7, 8, 9, 10, 11, 12, 13, 14, 15, 16]).bind
      (fun inner' => bytes inner' 319 192)
      = some [1, 2, 3, 4, 5, 6, 7, 8, 9, 10, 11, 12, 13, 14, 15, 16] :=
  set_bytes_bytes_roundtrip Tester.new 319 192
    [1, 2, 3, 4, 5, 6, 7, 8, 9, 10, 11, 12, 13, 14, 15, 16]
    (by decide) (by decide) (by decide) (by decide)

/-- C6 counterexample: from the Vlan default bytes `00 0a 08 00` the `vid`
getter returns `0x00a`, not `0x0a8` as the claim states. -/
theorem vlan_default_vid_counterexample : Vlan.vid Vlan.new ≠ some 0xa8 := by
  decide

/-- C6 amended: a freshly constructed Vlan header yields `pcp = 0`,
`cfi = 0`, `vid = 0x00a`, `etype = 0x0800`. -/
theorem vlan_default_fields :
    Vlan.pcp Vlan.new = some 0 ∧ Vlan.cfi Vlan.new = some 0 ∧
    Vlan.vid Vlan.new = some 0xa ∧ Vlan.etype Vlan.new = some 0x800 := by
  decide

/-- C7 counterexample: for the `Tester` default buffer and the field
`byte4: 66-127` (width 62, remainder `r = 6`), the final byte printed by
`show` is `0x40 = 64`, which is not below `2^r = 64`: the trailing
fragment holds `r + 1` bits, not `r`. -/
theorem show_partial_tail_counterexample :
    showFieldData Tester.new 66 127
        = some [0x36, 0xe2, 0x16, 0x8f, 0xc3, 0x83, 0x43, 0x40] ∧
    ¬ (0x40 < 2 ^ ((127 - 66 + 1) % 8)) := by
  constructor
  · decide
  · decide

/-- C7 amended: for a field of width `> 8` not a multiple of 8, the final
byte printed by `show` equals `read_bits(buf, end, end - r)` with
`r = width mod 8` — a span of `r + 1` bits — so its value is strictly
below `2^(r+1)` (not necessarily below `2^r`). -/
theorem show_partial_tail (inner : List Nat) (start stop : Nat)
    (h1 : start ≤ stop) (h2 : stop < 8 * inner.length)
    (h3 : 8 < stop - start + 1) (h4 : (stop - start + 1) % 8 ≠ 0) :
    ∃ out v, showFieldData inner start stop = some out ∧
      bit_range inner stop (stop - (stop - start + 1) % 8) = some v ∧
      out.getLast? = some v ∧ v < 2 ^ ((stop - start + 1) % 8 + 1) := by
  have hr : (stop - start + 1) % 8 < 8 := Nat.mod_lt _ (by norm_num)
  obtain ⟨full, hfull, hflen, _⟩ :=
    bytesLoop_spec inner ((stop - start + 1) / 8) start (by omega)
  have hv := bit_range_spec inner stop (stop - (stop - start + 1) % 8)
    (by omega) h2 (by omega)
  have e : stop + 1 - (stop - (stop - start + 1) % 8) = (stop - start + 1) % 8 + 1 := by
    omega
  rw [e] at hv
  set V := bitsVal inner
    (List.range' (stop - (stop - start + 1) % 8) ((stop - start + 1) % 8 + 1)) with hVdef
  have hVlt : V < 2 ^ ((stop - start + 1) % 8 + 1) := by
    have hb := bitsVal_lt inner
      (List.range' (stop - (stop - start + 1) % 8) ((stop - start + 1) % 8 + 1))
    rwa [List.length_range'] at hb
  have hVmod : V % 256 = V := by
    apply Nat.mod_eq_of_lt
    calc V < 2 ^ ((stop - start + 1) % 8 + 1) := hVlt
      _ ≤ 2 ^ 8 := Nat.pow_le_pow_right (by norm_num) (by omega)
      _ = 256 := by norm_num
  refine ⟨full ++ [V % 256], V, ?_, hv, ?_, hVlt⟩
  · simp only [showFieldData, if_neg (by omega : ¬ (stop - start + 1 ≤ 8)),
      if_neg h4, hfull, hv]
  · rw [List.getLast?_concat, hVmod]

theorem show_partial_tail_witness :
    ∃ out v, showFieldData Tester.new 66 127 = some out ∧
      bit_range Tester.new 127 (127 - (127 - 66 + 1) % 8) = some v ∧
      out.getLast? = some v ∧ v < 2 ^ ((127 - 66 + 1) % 8 + 1) :=
  show_partial_tail Tester.new 66 127 (by decide) (by decide) (by decide) (by decide)

/-- C8: on an in-range span with `lsb ≤ msb`, `bytes` aborts exactly when
the width is not a multiple of 8, and `set_bytes` aborts exactly when
`value.len * 8` differs from the width; otherwise both complete. -/
theorem byte_run_abort_conditions (inner : List Nat) (msb lsb : Nat) (value : List Nat)
    (h1 : lsb ≤ msb) (h2 : msb < 8 * inner.length) :
    ((bytes inner msb lsb).isSome ↔ (msb - lsb + 1) % 8 = 0) ∧
    ((set_bytes inner msb lsb value).isSome ↔ value.length * 8 = msb - lsb + 1) := by
  have hc1 : checkedSub msb lsb = some (msb - lsb) := by
    unfold checkedSub; rw [if_pos h1]
  constructor
  · constructor
    · intro h
      by_contra hmod
      rw [show bytes inner msb lsb = none from by
        simp only [bytes, hc1, if_neg hmod]] at h
      simp at h
    · intro hmod
      obtain ⟨out, heq, _, _⟩ := bytes_spec inner msb lsb h1 h2 hmod
      rw [heq]
      rfl
  · constructor
    · intro h
      by_contra hlen
      rw [show set_bytes inner msb lsb value = none from by
        simp only [set_bytes, hc1, if_neg hlen]] at h
      simp at h
    · intro hlen
      obtain ⟨inner', heq, _, _, _⟩ := set_bytes_spec inner msb lsb value h1 h2 hlen
      rw [heq]
      rfl

theorem byte_run_abort_conditions_witness :
    ((bytes Tester.new 319 192).isSome ↔ (319 - 192 + 1) % 8 = 0) ∧
    ((set_bytes Tester.new 319 192 [99]).isSome
      ↔ ([99] : List Nat).length * 8 = 319 - 192 + 1) :=
  byte_run_abort_conditions Tester.new 319 192 [99] (by decide) (by decide)

/-- C9: every bit-range read of width above 64 aborts instead of
returning a value (in particular the `Tester::byte16` getter for bits
192-319): the final shift amount `64 - (msb - lsb + 1)` underflows. -/
theorem wide_bit_range_aborts (inner : List Nat) (msb lsb : Nat)
    (h1 : lsb ≤ msb) (h2 : msb < 8 * inner.length) (h3 : 64 < msb - lsb + 1) :
    bit_range inner msb lsb = none := by
  have hb : ∀ i ∈ List.range' lsb (msb + 1 - lsb), i / 8 < inner.length := by
    intro i hi
    have := List.mem_range'_1.mp hi
    omega
  have hloop := readBitsLoop_eq inner (List.range' lsb (msb + 1 - lsb)) 0 hb
  rw [Nat.zero_mod] at hloop
  have hc1 : checkedSub msb lsb = some (msb - lsb) := by
    unfold checkedSub; rw [if_pos h1]
  have hc2 : checkedSub 64 (msb - lsb + 1) = none := by
    unfold checkedSub; rw [if_neg (by omega)]
  simp only [bit_range, hloop, hc1, hc2]

theorem wide_bit_range_aborts_witness : Tester.byte16 Tester.new = none :=
  wide_bit_range_aborts Tester.new 319 192 (by decide) (by decide) (by decide)

/-- C10: with a reversed span (`msb < lsb`), both `bytes` and `set_bytes`
abort — the width computation `msb - lsb + 1` underflows before any
buffer access — instead of treating the span as empty. -/
theorem reversed_span_aborts (inner : List Nat) (msb lsb : Nat) (value : List Nat)
    (h : msb < lsb) :
    bytes inner msb lsb = none ∧ set_bytes inner msb lsb value = none := by
  have hc : checkedSub msb lsb = none := by
    unfold checkedSub; rw [if_neg (by omega)]
  constructor
  · simp only [bytes, hc]
  · simp only [set_bytes, hc]

theorem reversed_span_aborts_witness :
    bytes Ethernet.new 0 1 = none ∧ set_bytes Ethernet.new 0 1 [] = none :=
  reversed_span_aborts Ethernet.new 0 1 [] (by decide)

end Packet
